import Mathlib

/-!
# Metric labels of `metrics/labels.go`

A shallow embedding of the label calculation of the `metrics` package
(`pathLabel`, `serviceLabel`, `methodLabel`, `codeLabel`) and the properties
that follow from it.

A Go string is a sequence of bytes; it is modelled as a Lean string, a
sequence of characters. `pathLabel` and `serviceLabel` only test for the
separator `/`, compare whole segments or ASCII prefixes and write the wildcard
`-`; these characters are single bytes that never occur inside a multi-byte
encoding, so walking characters and walking bytes agree. The Go type `int` of
a status code is modelled as an integer; `codeLabel` does no arithmetic on it.
-/

namespace Metrics

/-! ## Data model -/

/-- Modelled from the spec: the declaration of the tree type used by
`t.owner.paths` is not part of `labels.go`. Each node is a mapping from a
segment string (including the reserved wildcard key `-`) to a child node. The
mapping is kept as an association list read through `pathTree.get`, the first
entry of a key being the one the map holds. -/
inductive pathTree where
  | node : List (String × pathTree) → pathTree

/-- The entries of a node. -/
def pathTree.entries : pathTree → List (String × pathTree)
  | .node kvs => kvs

/-- The index expression `next, ok := current[key]`: `some next` when `ok`. -/
def pathTree.get (current : pathTree) (key : String) : Option pathTree :=
  current.entries.lookup key

/-- Whether `key` is a key of the node. -/
def pathTree.hasKey (current : pathTree) (key : String) : Bool :=
  (current.get key).isSome

/-! ## String helpers of the Go standard library -/

/-- The first loop of `pathLabel` on characters:
`for len(path) > 0 && strings.HasPrefix(path, "/") { path = path[1:] }`. -/
def trimLeadingChars : List Char → List Char
  | [] => []
  | c :: cs => if c = '/' then trimLeadingChars cs else c :: cs

/-- The second loop of `pathLabel` on characters, run for at most `fuel`
iterations:
`for len(path) > 0 && strings.HasSuffix(path, "/") { path = path[0 : len(path)-1] }`. -/
def trimTrailingLoop : Nat → List Char → List Char
  | 0, path => path
  | fuel + 1, path =>
    if 0 < path.length ∧ path.getLast? = some '/' then
      trimTrailingLoop fuel path.dropLast
    else
      path

/-- The second loop of `pathLabel`; every iteration shortens the path, so
`len(path)` iterations are enough (`trimTrailingChars_fixed`). -/
def trimTrailingChars (path : List Char) : List Char :=
  trimTrailingLoop path.length path

/-- Characters of `strings.Split(s, "/")`: the pieces between separators;
there is always at least one piece. -/
def splitChars : List Char → List (List Char)
  | [] => [[]]
  | c :: cs =>
    if c = '/' then [] :: splitChars cs
    else
      match splitChars cs with
      | [] => [[c]]
      | s :: ss => (c :: s) :: ss

/-- The call `strings.Split(path, "/")`. -/
def Split (path : String) : List String :=
  (splitChars path.data).map String.mk

/-- The call `strings.Join(segments, "/")`. -/
def Join : List String → String
  | [] => ""
  | [s] => s
  | s :: t :: ss => s ++ "/" ++ Join (t :: ss)

/-! ## `pathLabel` -/

/-- The path after both trimming loops of `pathLabel`. -/
def normalize (path : String) : String :=
  ⟨trimTrailingChars (trimLeadingChars path.data)⟩

/-- One iteration of the segment loop of `pathLabel` at cursor `current`:
the value left in `segments[i]` and the next cursor, or `none` when the loop
leaves through its early `return` of the catch-all. -/
def step (current : pathTree) (segment : String) : Option (String × pathTree) :=
  match current.get segment with
  | some next => some (segment, next)
  | none =>
    match current.get "-" with
    | some next => some ("-", next)
    | none => none

/-- The segment loop of `pathLabel` started at cursor `current`: the rewritten
segments when the loop runs to its end, `none` when it returns the catch-all early. -/
def walk (current : pathTree) : List String → Option (List String)
  | [] => some []
  | segment :: rest =>
    match step current segment with
    | some (seg, next) =>
      match walk next rest with
      | some out => some (seg :: out)
      | none => none
    | none => none

/-- The cursor `current` after the loop has processed the given segments,
`none` if the loop returned early among them. -/
def cursor (current : pathTree) : List String → Option pathTree
  | [] => some current
  | segment :: rest =>
    match step current segment with
    | some (_, next) => cursor next rest
    | none => none

/-- The function `pathLabel`, with `t.owner.paths` and `request.URL.Path` as
arguments. -/
def pathLabel (paths : pathTree) (path : String) : String :=
  match walk paths (Split (normalize path)) with
  | some segments => "/" ++ Join segments
  | none => "/-"

/-! ## `serviceLabel` -/

/-- The call `strings.HasPrefix(s, pre)`. -/
def HasPrefix (s pre : String) : Bool :=
  pre.data.isPrefixOf s.data

/-- The function `serviceLabel`, with `request.URL.Path` as argument. -/
def serviceLabel (path : String) : String :=
  if ! HasPrefix path "/api/" then ""
  else if HasPrefix path "/api/accounts_mgmt" then "ocm-accounts-service"
  else if HasPrefix path "/api/clusters_mgmt" then "ocm-clusters-service"
  else if HasPrefix path "/api/authorizations" then "ocm-authorizations-service"
  else if HasPrefix path "/api/service_logs" then "ocm-logs-service"
  else
    let parts := Split path
    if h : parts.length > 3 then "ocm-" ++ parts[3] else ""

/-- The labels `serviceLabel` returns without looking at the split path. -/
def fixedServiceLabels : List String :=
  ["", "ocm-accounts-service", "ocm-clusters-service", "ocm-authorizations-service",
    "ocm-logs-service"]

/-! ## `methodLabel` -/

/-- The ASCII branch of `strings.ToUpper` on one character:
`if 'a' <= c && c <= 'z' { c -= 'a' - 'A' }`. -/
def asciiUpper (c : Char) : Char :=
  if 'a'.toNat ≤ c.toNat ∧ c.toNat ≤ 'z'.toNat then
    Char.ofNat (c.toNat - ('a'.toNat - 'A'.toNat))
  else c

/-- The call `strings.ToUpper(s)` of the Go standard library: a string of
ASCII characters without lowercase letter is returned as it is, a string of
ASCII characters has its lowercase letters shifted, and any other string is
mapped through `unicode.ToUpper`, which is the parameter `upper`. -/
def ToUpper (upper : Char → Char) (s : String) : String :=
  if s.data.all (fun c => decide (c.toNat < 128)) then
    if s.data.any (fun c => decide ('a'.toNat ≤ c.toNat ∧ c.toNat ≤ 'z'.toNat)) then
      ⟨s.data.map asciiUpper⟩
    else s
  else ⟨s.data.map upper⟩

/-- The function `methodLabel`, with `request.Method` as argument. -/
def methodLabel (upper : Char → Char) (method : String) : String :=
  ToUpper upper method

/-- An ASCII letter. -/
def isAsciiLetter (c : Char) : Bool :=
  (decide ('A'.toNat ≤ c.toNat) && decide (c.toNat ≤ 'Z'.toNat)) ||
    (decide ('a'.toNat ≤ c.toNat) && decide (c.toNat ≤ 'z'.toNat))

/-! ## `codeLabel` -/

/-- The type `http.Response` of the Go standard library, reduced to the field
that `codeLabel` reads. -/
structure Response where
  StatusCode : Int

/-- The decimal digit of a number below ten. -/
def digitChar (d : Nat) : Char :=
  Char.ofNat ('0'.toNat + d)

/-- The decimal digits of `u`, most significant first, produced by repeated
division by ten for at most `fuel` rounds. -/
def formatBits : Nat → Nat → List Char
  | 0, _ => []
  | fuel + 1, u =>
    if u < 10 then [digitChar u]
    else formatBits fuel (u / 10) ++ [digitChar (u % 10)]

/-- The call `strconv.Itoa(i)` of the Go standard library: the decimal digits
of the absolute value, after a minus sign when `i` is negative. Every round
divides by ten, so `|i| + 1` rounds are enough (`decimalValue_formatBits`). -/
def Itoa (i : Int) : String :=
  if i < 0 then ⟨'-' :: formatBits (i.natAbs + 1) i.natAbs⟩
  else ⟨formatBits (i.natAbs + 1) i.natAbs⟩

/-- The function `codeLabel`; `none` is the `nil` response. -/
def codeLabel (response : Option Response) : String :=
  let code : Int :=
    match response with
    | some r => r.StatusCode
    | none => 0
  Itoa code

/-- The number a list of decimal digits stands for. -/
def decimalValue (cs : List Char) : Nat :=
  cs.foldl (fun acc c => 10 * acc + (c.toNat - '0'.toNat)) 0

/-- The integer a decimal string with an optional minus sign stands for. -/
def decimalInt (s : String) : Int :=
  match s.data with
  | '-' :: ds => - (decimalValue ds : Int)
  | ds => (decimalValue ds : Int)

/-! ## Bounds of the slice and index expressions -/

/-- The slice expression `s[lo:hi]` of Go, which panics (`none`) unless
`0 <= lo <= hi <= len(s)`. -/
def sliceChecked (s : List Char) (lo hi : Int) : Option (List Char) :=
  if 0 ≤ lo ∧ lo ≤ hi ∧ hi ≤ (s.length : Int) then
    some ((s.take hi.toNat).drop lo.toNat)
  else none

/-- The index expression `parts[i]` of Go, which panics (`none`) unless
`0 <= i < len(parts)`. -/
def indexChecked (parts : List String) (i : Int) : Option String :=
  if 0 ≤ i ∧ i < (parts.length : Int) then parts[i.toNat]? else none

/-- The first loop of `pathLabel` with its slice expression `path[1:]`
checked; `none` when a slice panics or the fuel runs out. -/
def trimLeadingChecked : Nat → List Char → Option (List Char)
  | 0, _ => none
  | fuel + 1, path =>
    if 0 < path.length ∧ path.head? = some '/' then
      (sliceChecked path 1 path.length).bind (trimLeadingChecked fuel)
    else some path

/-- The second loop of `pathLabel` with its slice expression
`path[0 : len(path)-1]` checked; `none` when a slice panics or the fuel runs
out. -/
def trimTrailingChecked : Nat → List Char → Option (List Char)
  | 0, _ => none
  | fuel + 1, path =>
    if 0 < path.length ∧ path.getLast? = some '/' then
      (sliceChecked path 0 ((path.length : Int) - 1)).bind (trimTrailingChecked fuel)
    else some path

/-- The function `pathLabel` with the slice expressions of its two loops
checked, each loop being given one round more than the length of its path. -/
def pathLabelChecked (paths : pathTree) (path : String) : Option String :=
  (trimLeadingChecked (path.data.length + 1) path.data).bind fun p1 =>
  (trimTrailingChecked (p1.length + 1) p1).bind fun p2 =>
  match walk paths (Split ⟨p2⟩) with
  | some segments => some ("/" ++ Join segments)
  | none => some "/-"

/-- The function `serviceLabel` with its index expression `parts[3]` checked. -/
def serviceLabelChecked (path : String) : Option String :=
  if ! HasPrefix path "/api/" then some ""
  else if HasPrefix path "/api/accounts_mgmt" then some "ocm-accounts-service"
  else if HasPrefix path "/api/clusters_mgmt" then some "ocm-clusters-service"
  else if HasPrefix path "/api/authorizations" then some "ocm-authorizations-service"
  else if HasPrefix path "/api/service_logs" then some "ocm-logs-service"
  else
    let parts := Split path
    if parts.length > 3 then (indexChecked parts 3).map (fun part => "ocm-" ++ part)
    else some ""

/-! ## Vocabulary of the properties -/

/-- A chain of keys starting at `t`: the first is a key of `t`, the second a
key of the child under the first, and so on. -/
def isChain (t : pathTree) : List String → Bool
  | [] => true
  | s :: ss =>
    match t.get s with
    | some child => isChain child ss
    | none => false

/-- A node without children. -/
def leaf : pathTree := .node []

/-- The chain `chain` matches the segments `segments`: both have the same
length and every key of the chain is the segment at its place or the wildcard
key. -/
def chainMatches : List String → List String → Bool
  | [], [] => true
  | k :: ks, s :: ss => (k == s || k == "-") && chainMatches ks ss
  | _, _ => false

/-- The tree with root keys `a` (child with the only key `b`) and `-` (child
with the only key `c`). -/
def siblingTree : pathTree :=
  .node [("a", .node [("b", leaf)]), ("-", .node [("c", leaf)])]

/-- Characters of `Join`: the pieces with a separator between neighbours. -/
def joinChars : List (List Char) → List Char
  | [] => []
  | [s] => s
  | s :: t :: ss => s ++ '/' :: joinChars (t :: ss)

/-- A path that neither starts nor ends with the separator. -/
def Trimmed (cs : List Char) : Prop :=
  cs.head? ≠ some '/' ∧ cs.getLast? ≠ some '/'

/-- Whether two separators stand next to each other. -/
def adjacentSeparators : List Char → Bool
  | c :: d :: cs => (c == '/' && d == '/') || adjacentSeparators (d :: cs)
  | _ => false

/-- The tree whose root has the wildcard key as its only key. -/
def wildcardRoot : pathTree := .node [("-", leaf)]

/-- A tree with the chain `api`, `clusters_mgmt` and the wildcard child `W`
below it. -/
def clustersTree (W : pathTree) : pathTree :=
  .node [("api", .node [("clusters_mgmt", .node [("-", W)])])]

/-! ## Trimming -/

theorem trimLeadingChars_slash (cs : List Char) :
    trimLeadingChars ('/' :: cs) = trimLeadingChars cs := by
  simp [trimLeadingChars]

theorem trimLeadingChars_of_ne {c : Char} (cs : List Char) (h : c ≠ '/') :
    trimLeadingChars (c :: cs) = c :: cs := by
  simp [trimLeadingChars, h]

theorem trimLeadingChars_head (cs : List Char) :
    (trimLeadingChars cs).head? ≠ some '/' := by
  induction cs with
  | nil => simp [trimLeadingChars]
  | cons c cs ih =>
    by_cases h : c = '/'
    · subst h; rw [trimLeadingChars_slash]; exact ih
    · rw [trimLeadingChars_of_ne cs h]; simpa using h

theorem trimLeadingChars_of_head {cs : List Char} (h : cs.head? ≠ some '/') :
    trimLeadingChars cs = cs := by
  cases cs with
  | nil => rfl
  | cons c cs => exact trimLeadingChars_of_ne cs (by simpa using h)

theorem trimLeadingChars_replicate_append (n : Nat) (cs : List Char) :
    trimLeadingChars (List.replicate n '/' ++ cs) = trimLeadingChars cs := by
  induction n with
  | zero => rfl
  | succ n ih => rw [List.replicate_succ, List.cons_append, trimLeadingChars_slash, ih]

theorem trimLeadingChars_all {cs : List Char} (h : ∀ c ∈ cs, c = '/') :
    trimLeadingChars cs = [] := by
  induction cs with
  | nil => rfl
  | cons c cs ih =>
    have hc : c = '/' := h c (List.mem_cons_self _ _)
    subst hc
    rw [trimLeadingChars_slash]
    exact ih (fun d hd => h d (List.mem_cons_of_mem _ hd))

theorem trimLeadingChars_eq_nil {cs : List Char} (h : trimLeadingChars cs = []) :
    ∀ c ∈ cs, c = '/' := by
  induction cs with
  | nil => simp
  | cons c cs ih =>
    by_cases hc : c = '/'
    · subst hc
      rw [trimLeadingChars_slash] at h
      intro d hd
      rcases List.mem_cons.mp hd with hd | hd
      · exact hd
      · exact ih h d hd
    · rw [trimLeadingChars_of_ne cs hc] at h; cases h

theorem trimLeadingChars_append_replicate (cs : List Char) (m : Nat)
    (h : trimLeadingChars cs ≠ []) :
    trimLeadingChars (cs ++ List.replicate m '/') =
      trimLeadingChars cs ++ List.replicate m '/' := by
  induction cs with
  | nil => exact absurd rfl h
  | cons c cs ih =>
    by_cases hc : c = '/'
    · subst hc
      rw [trimLeadingChars_slash] at h ⊢
      rw [List.cons_append, trimLeadingChars_slash]
      exact ih h
    · rw [List.cons_append, trimLeadingChars_of_ne _ hc, trimLeadingChars_of_ne _ hc,
        List.cons_append]

theorem trimTrailingLoop_concat_slash (fuel : Nat) (cs : List Char) :
    trimTrailingLoop (fuel + 1) (cs ++ ['/']) = trimTrailingLoop fuel cs := by
  simp [trimTrailingLoop]

theorem trimTrailingLoop_concat_of_ne (fuel : Nat) (cs : List Char) {c : Char}
    (h : c ≠ '/') : trimTrailingLoop fuel (cs ++ [c]) = cs ++ [c] := by
  cases fuel with
  | zero => rfl
  | succ n => simp [trimTrailingLoop, h]

theorem trimTrailingChars_nil : trimTrailingChars [] = [] := rfl

theorem trimTrailingChars_concat_slash (cs : List Char) :
    trimTrailingChars (cs ++ ['/']) = trimTrailingChars cs := by
  unfold trimTrailingChars
  rw [List.length_append, List.length_singleton, trimTrailingLoop_concat_slash]

theorem trimTrailingChars_concat_of_ne (cs : List Char) {c : Char} (h : c ≠ '/') :
    trimTrailingChars (cs ++ [c]) = cs ++ [c] :=
  trimTrailingLoop_concat_of_ne _ cs h

/-- The second loop stops only at a path that does not end with the
separator: the fuel `len(path)` is never used up before. -/
theorem trimTrailingChars_fixed (cs : List Char) :
    (trimTrailingChars cs).getLast? ≠ some '/' := by
  induction cs using List.reverseRecOn with
  | nil => simp [trimTrailingChars_nil]
  | append_singleton cs c ih =>
    by_cases h : c = '/'
    · subst h; rw [trimTrailingChars_concat_slash]; exact ih
    · rw [trimTrailingChars_concat_of_ne cs h]; simpa using h

theorem trimTrailingChars_of_last {cs : List Char} (h : cs.getLast? ≠ some '/') :
    trimTrailingChars cs = cs := by
  induction cs using List.reverseRecOn with
  | nil => rfl
  | append_singleton cs c _ =>
    exact trimTrailingChars_concat_of_ne cs (by simpa using h)

theorem trimTrailingChars_append_replicate (cs : List Char) (m : Nat) :
    trimTrailingChars (cs ++ List.replicate m '/') = trimTrailingChars cs := by
  induction m with
  | zero => simp
  | succ m ih =>
    rw [List.replicate_succ', ← List.append_assoc, trimTrailingChars_concat_slash, ih]

theorem trimTrailingChars_replicate (m : Nat) :
    trimTrailingChars (List.replicate m '/') = [] := by
  have h := trimTrailingChars_append_replicate [] m
  simpa [trimTrailingChars_nil] using h

/-- Trimming at the end keeps the first character. -/
theorem trimTrailingChars_head {cs : List Char} (h : cs.head? ≠ some '/') :
    (trimTrailingChars cs).head? ≠ some '/' := by
  induction cs using List.reverseRecOn with
  | nil => simp [trimTrailingChars_nil]
  | append_singleton cs c ih =>
    by_cases hc : c = '/'
    · subst hc
      rw [trimTrailingChars_concat_slash]
      apply ih
      cases cs with
      | nil => simp
      | cons d ds => simpa using h
    · rw [trimTrailingChars_concat_of_ne cs hc]; exact h

theorem trimmed_norm (cs : List Char) :
    Trimmed (trimTrailingChars (trimLeadingChars cs)) :=
  ⟨trimTrailingChars_head (trimLeadingChars_head cs), trimTrailingChars_fixed _⟩

theorem norm_of_trimmed {cs : List Char} (h : Trimmed cs) :
    trimTrailingChars (trimLeadingChars cs) = cs := by
  rw [trimLeadingChars_of_head h.1, trimTrailingChars_of_last h.2]

theorem norm_slashes (n m : Nat) (cs : List Char) :
    trimTrailingChars (trimLeadingChars
        (List.replicate n '/' ++ cs ++ List.replicate m '/')) =
      trimTrailingChars (trimLeadingChars cs) := by
  rw [List.append_assoc, trimLeadingChars_replicate_append]
  by_cases h : trimLeadingChars cs = []
  · have hall : ∀ c ∈ cs ++ List.replicate m '/', c = '/' := by
      intro c hc
      rcases List.mem_append.mp hc with hc | hc
      · exact trimLeadingChars_eq_nil h c hc
      · exact (List.mem_replicate.mp hc).2
    rw [trimLeadingChars_all hall, h]
  · rw [trimLeadingChars_append_replicate cs m h, trimTrailingChars_append_replicate]

theorem norm_all {cs : List Char} (h : ∀ c ∈ cs, c = '/') :
    trimTrailingChars (trimLeadingChars cs) = [] := by
  rw [trimLeadingChars_all h, trimTrailingChars_nil]

/-! ## Splitting and joining -/

theorem splitChars_ne_nil (cs : List Char) : splitChars cs ≠ [] := by
  cases cs with
  | nil => simp [splitChars]
  | cons c cs =>
    unfold splitChars
    split
    · simp
    · split <;> simp

theorem Split_ne_nil (path : String) : Split path ≠ [] := by
  simp [Split, splitChars_ne_nil]

theorem splitChars_slash (cs : List Char) :
    splitChars ('/' :: cs) = [] :: splitChars cs := by
  simp [splitChars]

theorem splitChars_exists (cs : List Char) : ∃ s ss, splitChars cs = s :: ss := by
  cases h : splitChars cs with
  | nil => exact absurd h (splitChars_ne_nil cs)
  | cons s ss => exact ⟨s, ss, rfl⟩

theorem splitChars_of_ne {c : Char} {cs s : List Char} {ss : List (List Char)}
    (hc : c ≠ '/') (h : splitChars cs = s :: ss) :
    splitChars (c :: cs) = (c :: s) :: ss := by
  simp [splitChars, hc, h]

theorem joinChars_cons_cons (c : Char) (s : List Char) (ss : List (List Char)) :
    joinChars ((c :: s) :: ss) = c :: joinChars (s :: ss) := by
  cases ss <;> simp [joinChars]

theorem joinChars_nil_cons (s : List Char) (ss : List (List Char)) :
    joinChars ([] :: s :: ss) = '/' :: joinChars (s :: ss) := by
  simp [joinChars]

/-- Joining the pieces of a split gives the path back. -/
theorem joinChars_splitChars (cs : List Char) : joinChars (splitChars cs) = cs := by
  induction cs with
  | nil => rfl
  | cons c cs ih =>
    obtain ⟨s, ss, h⟩ := splitChars_exists cs
    by_cases hc : c = '/'
    · subst hc
      rw [splitChars_slash, h, joinChars_nil_cons, ← h, ih]
    · rw [splitChars_of_ne hc h, joinChars_cons_cons, ← h, ih]

/-- No piece of a split holds the separator. -/
theorem splitChars_no_separator (cs : List Char) : ∀ s ∈ splitChars cs, '/' ∉ s := by
  induction cs with
  | nil => simp [splitChars]
  | cons c cs ih =>
    obtain ⟨s, ss, h⟩ := splitChars_exists cs
    rw [h] at ih
    by_cases hc : c = '/'
    · subst hc
      rw [splitChars_slash, h]
      intro x hx
      rcases List.mem_cons.mp hx with hx | hx
      · subst hx; simp
      · exact ih x hx
    · rw [splitChars_of_ne hc h]
      intro x hx
      rcases List.mem_cons.mp hx with hx | hx
      · subst hx
        intro hmem
        rcases List.mem_cons.mp hmem with hm | hm
        · exact hc hm.symm
        · exact ih s (List.mem_cons_self _ _) hm
      · exact ih x (List.mem_cons_of_mem _ hx)

theorem splitChars_append_separator {s : List Char} (h : '/' ∉ s) (cs : List Char) :
    splitChars (s ++ '/' :: cs) = s :: splitChars cs := by
  induction s with
  | nil => exact splitChars_slash cs
  | cons c s ih =>
    have hc : c ≠ '/' := fun e => h (e ▸ List.mem_cons_self _ _)
    have hs : '/' ∉ s := fun e => h (List.mem_cons_of_mem _ e)
    rw [List.cons_append, splitChars_of_ne hc (ih hs)]

theorem splitChars_of_no_separator {s : List Char} (h : '/' ∉ s) : splitChars s = [s] := by
  induction s with
  | nil => rfl
  | cons c s ih =>
    have hc : c ≠ '/' := fun e => h (e ▸ List.mem_cons_self _ _)
    have hs : '/' ∉ s := fun e => h (List.mem_cons_of_mem _ e)
    rw [splitChars_of_ne hc (ih hs)]

/-- Splitting the join of separator-free pieces gives the pieces back. -/
theorem splitChars_joinChars : ∀ (segs : List (List Char)), segs ≠ [] →
    (∀ s ∈ segs, '/' ∉ s) → splitChars (joinChars segs) = segs
  | [], h, _ => absurd rfl h
  | [s], _, hs => by
    simpa [joinChars] using splitChars_of_no_separator (hs s (List.mem_singleton_self s))
  | s :: t :: ss, _, hs => by
    have ih := splitChars_joinChars (t :: ss) (List.cons_ne_nil _ _)
      (fun x hx => hs x (List.mem_cons_of_mem _ hx))
    simp only [joinChars]
    rw [splitChars_append_separator (hs s (List.mem_cons_self _ _)), ih]

theorem splitChars_head {cs : List Char} (hne : cs ≠ []) (h : cs.head? ≠ some '/') :
    (splitChars cs).head? ≠ some [] := by
  cases cs with
  | nil => exact absurd rfl hne
  | cons c cs =>
    have hc : c ≠ '/' := by simpa using h
    obtain ⟨s, ss, hs⟩ := splitChars_exists cs
    rw [splitChars_of_ne hc hs]
    simp

theorem splitChars_last (cs : List Char) (h : (splitChars cs).getLast? = some []) :
    cs = [] ∨ cs.getLast? = some '/' := by
  induction cs with
  | nil => exact Or.inl rfl
  | cons c cs ih =>
    right
    obtain ⟨s, ss, hs⟩ := splitChars_exists cs
    by_cases hc : c = '/'
    · subst hc
      rw [splitChars_slash, hs, List.getLast?_cons_cons, ← hs] at h
      rcases ih h with h0 | h1
      · subst h0; rfl
      · cases cs with
        | nil => rfl
        | cons d ds => rw [List.getLast?_cons_cons]; exact h1
    · rw [splitChars_of_ne hc hs] at h
      cases ss with
      | nil => simp at h
      | cons t ts =>
        rw [List.getLast?_cons_cons] at h
        have h2 : (splitChars cs).getLast? = some [] := by
          rw [hs, List.getLast?_cons_cons]; exact h
        rcases ih h2 with h0 | h1
        · subst h0; simp [splitChars] at hs
        · cases cs with
          | nil => simp at h1
          | cons d ds => rw [List.getLast?_cons_cons]; exact h1

theorem joinChars_head {s : List Char} (ss : List (List Char)) (hne : s ≠ [])
    (hs : '/' ∉ s) : (joinChars (s :: ss)).head? ≠ some '/' := by
  cases s with
  | nil => exact absurd rfl hne
  | cons c s =>
    rw [joinChars_cons_cons]
    have hc : c ≠ '/' := fun e => hs (e ▸ List.mem_cons_self _ _)
    simpa using hc

theorem joinChars_last : ∀ (segs : List (List Char)) (l : List Char),
    segs.getLast? = some l → l ≠ [] → '/' ∉ l → (joinChars segs).getLast? ≠ some '/'
  | [], _, h, _, _ => by simp at h
  | [s], l, h, hne, hl => by
    simp only [List.getLast?_singleton, Option.some.injEq] at h
    subst h
    simp only [joinChars]
    intro hlast
    exact hl (List.mem_of_getLast?_eq_some hlast)
  | s :: t :: ss, l, h, hne, hl => by
    rw [List.getLast?_cons_cons] at h
    have ih := joinChars_last (t :: ss) l h hne hl
    simp only [joinChars]
    have hj : joinChars (t :: ss) ≠ [] := by
      intro e
      cases ss with
      | nil =>
        simp only [joinChars] at e
        simp only [List.getLast?_singleton, Option.some.injEq] at h
        exact hne (h ▸ e)
      | cons u us => simp [joinChars] at e
    rw [List.getLast?_append_of_ne_nil _ (List.cons_ne_nil _ _)]
    cases hjj : joinChars (t :: ss) with
    | nil => exact absurd hjj hj
    | cons d ds =>
      rw [List.getLast?_cons_cons, ← hjj]
      exact ih

theorem trimmed_joinChars (segs : List (List Char)) (hns : ∀ s ∈ segs, '/' ∉ s)
    (hh : segs.head? ≠ some []) (hl : segs.getLast? ≠ some []) :
    Trimmed (joinChars segs) := by
  cases segs with
  | nil => exact ⟨by simp [joinChars], by simp [joinChars]⟩
  | cons s ss =>
    refine ⟨joinChars_head ss (by simpa using hh) (hns s (List.mem_cons_self _ _)), ?_⟩
    cases hlast : (s :: ss).getLast? with
    | none => simp at hlast
    | some l =>
      exact joinChars_last (s :: ss) l hlast (fun e => hl (e ▸ hlast))
        (hns l (List.mem_of_getLast?_eq_some hlast))

theorem Join_data : ∀ (segs : List String),
    (Join segs).data = joinChars (segs.map String.data)
  | [] => rfl
  | [_] => rfl
  | s :: t :: ss => by
    simp only [Join, String.data_append, List.map_cons, joinChars]
    rw [Join_data (t :: ss)]
    simp

theorem Split_data (path : String) :
    (Split path).map String.data = splitChars path.data := by
  simp [Split, Function.comp_def]

/-- Joining the result of `Split` gives the path back. -/
theorem Join_Split (path : String) : Join (Split path) = path := by
  apply String.ext
  rw [Join_data, Split_data, joinChars_splitChars]

theorem Split_no_separator (path : String) : ∀ s ∈ Split path, '/' ∉ s.data := by
  intro s hs
  apply splitChars_no_separator path.data
  rw [← Split_data]
  exact List.mem_map_of_mem _ hs

/-- Splitting the join of separator-free segments gives the segments back. -/
theorem Split_Join (segs : List String) (hne : segs ≠ [])
    (hns : ∀ s ∈ segs, '/' ∉ s.data) : Split (Join segs) = segs := by
  unfold Split
  rw [Join_data, splitChars_joinChars _ (by simpa using hne)]
  · simp [Function.comp_def]
  · intro x hx
    obtain ⟨s, hs, rfl⟩ := List.mem_map.mp hx
    exact hns s hs

theorem Split_trimmed {path : String} (hne : path ≠ "") (h : Trimmed path.data) :
    (Split path).head? ≠ some "" ∧ (Split path).getLast? ≠ some "" := by
  have hd : path.data ≠ [] := fun e => hne (String.ext e)
  constructor
  · intro e
    apply splitChars_head hd h.1
    rw [← Split_data, List.head?_map, e]; rfl
  · intro e
    have : (splitChars path.data).getLast? = some [] := by
      rw [← Split_data, List.getLast?_map, e]; rfl
    rcases splitChars_last _ this with h0 | h1
    · exact hd h0
    · exact h.2 h1

theorem Join_trimmed (segs : List String) (hns : ∀ s ∈ segs, '/' ∉ s.data)
    (hh : segs.head? ≠ some "") (hl : segs.getLast? ≠ some "") :
    Trimmed (Join segs).data := by
  rw [Join_data]
  apply trimmed_joinChars
  · intro x hx
    obtain ⟨s, hs, rfl⟩ := List.mem_map.mp hx
    exact hns s hs
  · rw [List.head?_map]
    intro e
    apply hh
    cases hs : segs.head? with
    | none => rw [hs] at e; cases e
    | some a =>
      rw [hs] at e
      simp only [Option.map_some', Option.some.injEq] at e
      exact congrArg some (String.ext e)
  · rw [List.getLast?_map]
    intro e
    apply hl
    cases hs : segs.getLast? with
    | none => rw [hs] at e; cases e
    | some a =>
      rw [hs] at e
      simp only [Option.map_some', Option.some.injEq] at e
      exact congrArg some (String.ext e)

theorem normalize_trimmed (path : String) : Trimmed (normalize path).data :=
  trimmed_norm path.data

theorem normalize_of_trimmed {path : String} (h : Trimmed path.data) :
    normalize path = path :=
  String.ext (norm_of_trimmed h)

/-! ## The segment loop -/

theorem step_of_get_some {current next : pathTree} {segment : String}
    (h : current.get segment = some next) : step current segment = some (segment, next) := by
  simp [step, h]

theorem step_of_get_none {current : pathTree} {segment : String}
    (h : current.get segment = none) :
    step current segment = (current.get "-").map (fun next => ("-", next)) := by
  unfold step
  rw [h]
  cases current.get "-" <;> rfl

theorem step_get {current next : pathTree} {segment seg : String}
    (h : step current segment = some (seg, next)) : current.get seg = some next := by
  unfold step at h
  split at h
  · rename_i n hn
    simp only [Option.some.injEq, Prod.mk.injEq] at h
    rw [← h.1, ← h.2]; exact hn
  · split at h
    · rename_i n hn
      simp only [Option.some.injEq, Prod.mk.injEq] at h
      rw [← h.1, ← h.2]; exact hn
    · cases h

theorem walk_isChain : ∀ (segments : List String) (current : pathTree) (out : List String),
    walk current segments = some out → isChain current out = true
  | [], _, out, h => by
    simp only [walk, Option.some.injEq] at h
    subst h; rfl
  | segment :: rest, current, out, h => by
    unfold walk at h
    split at h
    · rename_i seg next hstep
      split at h
      · rename_i out1 hrest
        simp only [Option.some.injEq] at h
        subst h
        simp only [isChain, step_get hstep]
        exact walk_isChain rest next out1 hrest
      · cases h
    · cases h

theorem walk_length : ∀ (segments : List String) (current : pathTree) (out : List String),
    walk current segments = some out → out.length = segments.length
  | [], _, out, h => by
    simp only [walk, Option.some.injEq] at h
    subst h; rfl
  | segment :: rest, current, out, h => by
    unfold walk at h
    split at h
    · rename_i seg next hstep
      split at h
      · rename_i out1 hrest
        simp only [Option.some.injEq] at h
        subst h
        simp [walk_length rest next out1 hrest]
      · cases h
    · cases h

theorem walk_cons_of_step {current next : pathTree} {segment seg : String}
    (rest : List String) (h : step current segment = some (seg, next)) :
    walk current (segment :: rest) = (walk next rest).map (fun out => seg :: out) := by
  simp only [walk, h]
  cases walk next rest <;> rfl

theorem walk_cons_of_abort {current : pathTree} {segment : String}
    (rest : List String) (h : step current segment = none) :
    walk current (segment :: rest) = none := by
  simp only [walk, h]

theorem cursor_isSome_of_walk : ∀ (segments : List String) (current : pathTree)
    (out : List String), walk current segments = some out →
    ∃ last, cursor current segments = some last
  | [], current, _, _ => ⟨current, rfl⟩
  | segment :: rest, current, out, h => by
    unfold walk at h
    split at h
    · rename_i seg next hstep
      split at h
      · rename_i out1 hrest
        simp only [cursor, hstep]
        exact cursor_isSome_of_walk rest next out1 hrest
      · cases h
    · cases h

theorem walk_isSome_of_cursor : ∀ (segments : List String) (current last : pathTree),
    cursor current segments = some last → ∃ out, walk current segments = some out
  | [], _, _, _ => ⟨[], rfl⟩
  | segment :: rest, current, last, h => by
    unfold cursor at h
    split at h
    · rename_i seg next hstep
      obtain ⟨out, hout⟩ := walk_isSome_of_cursor rest next last h
      exact ⟨seg :: out, by simp [walk, hstep, hout]⟩
    · cases h

/-- The loop over `before ++ after` is the loop over `before` followed by the
loop over `after` started at the cursor reached. -/
theorem walk_append : ∀ (before after : List String) (current last : pathTree)
    (pre : List String), cursor current before = some last →
    walk current before = some pre →
    walk current (before ++ after) = (walk last after).map (fun out => pre ++ out)
  | [], after, current, last, pre, hc, hw => by
    simp only [cursor, Option.some.injEq] at hc
    simp only [walk, Option.some.injEq] at hw
    subst hc; subst hw
    cases h : walk current after <;> simp [h]
  | segment :: rest, after, current, last, pre, hc, hw => by
    unfold cursor at hc
    unfold walk at hw
    split at hc
    · rename_i seg next hstep
      rw [hstep] at hw
      simp only at hw
      split at hw
      · rename_i out1 hrest
        simp only [Option.some.injEq] at hw
        subst hw
        have ih := walk_append rest after next last out1 hc hrest
        rw [List.cons_append, walk_cons_of_step _ hstep, ih]
        cases walk last after <;> rfl
      · cases hw
    · cases hc

theorem get_eq_none_of_hasKey {current : pathTree} {key : String}
    (h : current.hasKey key = false) : current.get key = none := by
  unfold pathTree.hasKey at h
  cases hg : current.get key with
  | none => rfl
  | some next => simp [hg] at h

theorem walk_abort (before after : List String) (segment : String)
    (paths current : pathTree) (hcur : cursor paths before = some current)
    (hstep : step current segment = none) :
    walk paths (before ++ segment :: after) = none := by
  obtain ⟨pre, hpre⟩ := walk_isSome_of_cursor before paths current hcur
  rw [walk_append before (segment :: after) paths current pre hcur hpre]
  simp [walk, hstep]

theorem step_spec {current next : pathTree} {segment seg : String}
    (h : step current segment = some (seg, next)) :
    seg = (if current.hasKey segment = true then segment else "-") ∧
    (current.hasKey segment = false → current.hasKey "-" = true) := by
  unfold step at h
  cases hg : current.get segment with
  | some n =>
    rw [hg] at h
    simp only [Option.some.injEq, Prod.mk.injEq] at h
    obtain ⟨h1, _⟩ := h
    subst h1
    simp [pathTree.hasKey, hg]
  | none =>
    rw [hg] at h
    cases hw : current.get "-" with
    | some n =>
      rw [hw] at h
      simp only [Option.some.injEq, Prod.mk.injEq] at h
      obtain ⟨h1, _⟩ := h
      subst h1
      simp [pathTree.hasKey, hg, hw]
    | none => rw [hw] at h; cases h

theorem walk_cons_inv {current : pathTree} {segment : String} {rest out : List String}
    (h : walk current (segment :: rest) = some out) :
    ∃ seg next out1, step current segment = some (seg, next) ∧
      walk next rest = some out1 ∧ out = seg :: out1 := by
  unfold walk at h
  split at h
  · rename_i seg next hstep
    split at h
    · rename_i out1 hrest
      simp only [Option.some.injEq] at h
      exact ⟨seg, next, out1, hstep, hrest, h.symm⟩
    · cases h
  · cases h

theorem walk_pointwise : ∀ (segments : List String) (current : pathTree)
    (out : List String), walk current segments = some out →
    ∀ (i : Nat) (s : String), segments[i]? = some s →
      ∃ cur, cursor current (segments.take i) = some cur ∧
        out[i]? = some (if cur.hasKey s = true then s else "-") ∧
        (cur.hasKey s = false → cur.hasKey "-" = true)
  | [], _, _, _, i, s, hi => by simp at hi
  | segment :: rest, current, out, h, i, s, hi => by
    obtain ⟨seg, next, out1, hstep, hrest, rfl⟩ := walk_cons_inv h
    cases i with
    | zero =>
      simp only [List.getElem?_cons_zero, Option.some.injEq] at hi
      subst hi
      refine ⟨current, rfl, ?_, (step_spec hstep).2⟩
      simp only [List.getElem?_cons_zero, Option.some.injEq]
      exact (step_spec hstep).1
    | succ n =>
      rw [List.getElem?_cons_succ] at hi
      obtain ⟨cur, hc, ho, hw⟩ := walk_pointwise rest next out1 hrest n s hi
      refine ⟨cur, ?_, ?_, hw⟩
      · rw [List.take_succ_cons]
        simp only [cursor, hstep]
        exact hc
      · rw [List.getElem?_cons_succ]; exact ho

theorem walk_of_isChain : ∀ (segments : List String) (current : pathTree),
    isChain current segments = true → walk current segments = some segments
  | [], _, _ => rfl
  | segment :: rest, current, h => by
    unfold isChain at h
    cases hg : current.get segment with
    | none => rw [hg] at h; cases h
    | some child =>
      rw [hg] at h
      rw [walk_cons_of_step rest (step_of_get_some hg), walk_of_isChain rest child h]
      rfl

theorem walk_mem : ∀ (segments : List String) (current : pathTree) (out : List String),
    walk current segments = some out → ∀ o ∈ out, o ∈ segments ∨ o = "-"
  | [], _, out, h => by
    simp only [walk, Option.some.injEq] at h
    subst h; simp
  | segment :: rest, current, out, h => by
    obtain ⟨seg, next, out1, hstep, hrest, rfl⟩ := walk_cons_inv h
    intro o ho
    rcases List.mem_cons.mp ho with ho | ho
    · subst ho
      have hs := (step_spec hstep).1
      by_cases hk : current.hasKey segment = true
      · left; rw [hs, if_pos hk]; exact List.mem_cons_self _ _
      · right; rw [hs, if_neg hk]
    · rcases walk_mem rest next out1 hrest o ho with h1 | h1
      · exact Or.inl (List.mem_cons_of_mem _ h1)
      · exact Or.inr h1

theorem walk_no_separator {segments out : List String} {current : pathTree}
    (h : walk current segments = some out) (hns : ∀ s ∈ segments, '/' ∉ s.data) :
    ∀ o ∈ out, '/' ∉ o.data := by
  intro o ho
  rcases walk_mem segments current out h o ho with h1 | h1
  · exact hns o h1
  · subst h1; decide

theorem walk_head_last : ∀ (segments : List String) (current : pathTree)
    (out : List String), walk current segments = some out →
    (out.head? = some "" → segments.head? = some "") ∧
    (out.getLast? = some "" → segments.getLast? = some "")
  | [], _, out, h => by
    simp only [walk, Option.some.injEq] at h
    subst h; simp
  | segment :: rest, current, out, h => by
    obtain ⟨seg, next, out1, hstep, hrest, rfl⟩ := walk_cons_inv h
    have hseg : seg = "" → segment = "" := by
      intro e
      have hs := (step_spec hstep).1
      by_cases hk : current.hasKey segment = true
      · rw [if_pos hk] at hs; rw [← hs]; exact e
      · rw [if_neg hk, e] at hs; exact absurd hs (by decide)
    have ih := walk_head_last rest next out1 hrest
    have hlen := walk_length rest next out1 hrest
    constructor
    · intro e
      simp only [List.head?_cons, Option.some.injEq] at e ⊢
      exact hseg e
    · intro e
      cases rest with
      | nil =>
        have : out1 = [] := List.length_eq_zero.mp hlen
        subst this
        simp only [List.getLast?_singleton, Option.some.injEq] at e ⊢
        exact hseg e
      | cons r rs =>
        cases out1 with
        | nil => simp at hlen
        | cons o os =>
          rw [List.getLast?_cons_cons] at e ⊢
          exact ih.2 e

theorem trimmed_of_no_separator {cs : List Char} (h : '/' ∉ cs) : Trimmed cs :=
  ⟨fun e => h (List.mem_of_mem_head? e), fun e => h (List.mem_of_getLast?_eq_some e)⟩

theorem Split_empty : Split "" = [""] := rfl

/-- The template of a completed loop is trimmed: `pathLabel` strips nothing
from it beyond the leading separator. -/
theorem walk_join_trimmed (paths : pathTree) (path : String) (out : List String)
    (h : walk paths (Split (normalize path)) = some out) :
    Trimmed (Join out).data := by
  have hns := walk_no_separator h (Split_no_separator _)
  by_cases hn : normalize path = ""
  · rw [hn, Split_empty] at h
    have hlen := walk_length _ _ _ h
    cases out with
    | nil => simp at hlen
    | cons o os =>
      cases os with
      | nil => exact trimmed_of_no_separator (hns o (List.mem_singleton_self o))
      | cons o2 os2 => simp at hlen
  · have ht := Split_trimmed hn (normalize_trimmed path)
    have hw := walk_head_last _ _ _ h
    exact Join_trimmed out hns (fun e => ht.1 (hw.1 e)) (fun e => ht.2 (hw.2 e))

theorem normalize_separator_append (s : String) : normalize ("/" ++ s) = normalize s := by
  apply String.ext
  simp only [normalize, String.data_append]
  exact congrArg trimTrailingChars (trimLeadingChars_slash s.data)

theorem pathLabel_of_walk {paths : pathTree} {path : String} {out : List String}
    (h : walk paths (Split (normalize path)) = some out) :
    pathLabel paths path = "/" ++ Join out := by
  simp only [pathLabel, h]

theorem pathLabel_of_abort {paths : pathTree} {path : String}
    (h : walk paths (Split (normalize path)) = none) :
    pathLabel paths path = "/-" := by
  simp only [pathLabel, h]

theorem catchAll_fixed (paths : pathTree) : pathLabel paths "/-" = "/-" := by
  have hs : Split (normalize "/-") = ["-"] := by decide
  unfold pathLabel
  rw [hs]
  cases hg : paths.get "-" with
  | some next => simp [walk, step, hg]; rfl
  | none => simp [walk, step, hg]

theorem trimLeadingChars_decompose (cs : List Char) :
    ∃ n, cs = List.replicate n '/' ++ trimLeadingChars cs := by
  induction cs with
  | nil => exact ⟨0, rfl⟩
  | cons c cs ih =>
    by_cases hc : c = '/'
    · subst hc
      obtain ⟨n, hn⟩ := ih
      refine ⟨n + 1, ?_⟩
      rw [trimLeadingChars_slash, List.replicate_succ, List.cons_append, ← hn]
    · exact ⟨0, by rw [trimLeadingChars_of_ne cs hc]; rfl⟩

theorem trimTrailingChars_decompose (cs : List Char) :
    ∃ m, cs = trimTrailingChars cs ++ List.replicate m '/' := by
  induction cs using List.reverseRecOn with
  | nil => exact ⟨0, rfl⟩
  | append_singleton cs c ih =>
    by_cases hc : c = '/'
    · subst hc
      obtain ⟨m, hm⟩ := ih
      refine ⟨m + 1, ?_⟩
      rw [trimTrailingChars_concat_slash, List.replicate_succ', ← List.append_assoc, ← hm]
    · exact ⟨0, by rw [trimTrailingChars_concat_of_ne cs hc]; simp⟩

/-- The normalized path is the path without its leading and trailing
separators. -/
theorem normalize_decompose (path : String) :
    ∃ n m, path.data =
      List.replicate n '/' ++ (normalize path).data ++ List.replicate m '/' := by
  obtain ⟨n, hn⟩ := trimLeadingChars_decompose path.data
  obtain ⟨m, hm⟩ := trimTrailingChars_decompose (trimLeadingChars path.data)
  refine ⟨n, m, ?_⟩
  simp only [normalize]
  rw [List.append_assoc, ← hm, ← hn]

theorem normalize_slashes (path : String) (n m : Nat) :
    normalize (String.mk (List.replicate n '/') ++ path ++ String.mk (List.replicate m '/')) =
      normalize path := by
  apply String.ext
  simp only [normalize, String.data_append]
  exact norm_slashes n m path.data

theorem normalize_all {path : String} (h : ∀ c ∈ path.data, c = '/') :
    normalize path = "" :=
  String.ext (norm_all h)

theorem all_of_normalize_empty {path : String} (h : normalize path = "") :
    ∀ c ∈ path.data, c = '/' := by
  have hd : trimTrailingChars (trimLeadingChars path.data) = [] :=
    congrArg String.data h
  obtain ⟨m, hm⟩ := trimTrailingChars_decompose (trimLeadingChars path.data)
  rw [hd, List.nil_append] at hm
  apply trimLeadingChars_eq_nil
  cases m with
  | zero => exact hm
  | succ k =>
    have hh := trimLeadingChars_head path.data
    rw [hm, List.replicate_succ] at hh
    exact absurd rfl hh

theorem walk_empty_segment (paths : pathTree) :
    walk paths [""] = if paths.hasKey "" = true then some [""]
      else if paths.hasKey "-" = true then some ["-"] else none := by
  unfold pathTree.hasKey
  cases hg : paths.get "" with
  | some next => simp [walk, step, hg]
  | none =>
    cases hw : paths.get "-" with
    | some next => simp [walk, step, hg, hw]
    | none => simp [walk, step, hg, hw]

theorem splitChars_tail_nonempty (cs : List Char) :
    (∀ s ∈ (splitChars cs).tail, s ≠ []) ↔
      (cs.getLast? ≠ some '/' ∧ adjacentSeparators cs = false) := by
  induction cs with
  | nil => simp [splitChars, adjacentSeparators]
  | cons c cs ih =>
    obtain ⟨s, ss, hs⟩ := splitChars_exists cs
    rw [hs, List.tail_cons] at ih
    by_cases hc : c = '/'
    · subst hc
      rw [splitChars_slash, List.tail_cons, hs, List.forall_mem_cons, ih]
      cases cs with
      | nil =>
        simp only [splitChars, List.cons.injEq] at hs
        obtain ⟨h1, h2⟩ := hs
        subst h1
        simp [adjacentSeparators]
      | cons d ds =>
        have hsd : s ≠ [] ↔ d ≠ '/' := by
          obtain ⟨s1, ss1, hs1⟩ := splitChars_exists ds
          by_cases hd : d = '/'
          · subst hd
            rw [splitChars_slash] at hs
            simp only [List.cons.injEq] at hs
            simp [hs.1]
          · rw [splitChars_of_ne hd hs1] at hs
            simp only [List.cons.injEq] at hs
            simp [← hs.1, hd]
        rw [List.getLast?_cons_cons, hsd]
        simp only [adjacentSeparators, beq_self_eq_true, Bool.true_and, Bool.or_eq_false_iff,
          beq_eq_false_iff_ne, ne_eq]
        tauto
    · rw [splitChars_of_ne hc hs, List.tail_cons, ih]
      cases cs with
      | nil => simp [adjacentSeparators, hc]
      | cons d ds =>
        rw [List.getLast?_cons_cons]
        simp [adjacentSeparators, hc]

theorem splitChars_nonempty_iff {cs : List Char} (hne : cs ≠ []) (h : Trimmed cs) :
    (∀ s ∈ splitChars cs, s ≠ []) ↔ adjacentSeparators cs = false := by
  have hh := splitChars_head hne h.1
  have ht := splitChars_tail_nonempty cs
  obtain ⟨s, ss, hs⟩ := splitChars_exists cs
  rw [hs] at hh ht ⊢
  rw [List.tail_cons] at ht
  rw [List.forall_mem_cons, ht]
  have hs0 : s ≠ [] := by simpa using hh
  constructor
  · exact fun hx => hx.2.2
  · exact fun hx => ⟨hs0, h.2, hx⟩

theorem Split_nonempty_iff {path : String} (hne : path ≠ "") (h : Trimmed path.data) :
    (∀ s ∈ Split path, s ≠ "") ↔ adjacentSeparators path.data = false := by
  have hd : path.data ≠ [] := fun e => hne (String.ext e)
  rw [← splitChars_nonempty_iff hd h, ← Split_data]
  constructor
  · intro hx x hmem
    obtain ⟨s, hs, rfl⟩ := List.mem_map.mp hmem
    exact fun e => hx s hs (String.ext e)
  · intro hx s hs e
    exact hx s.data (List.mem_map_of_mem _ hs) (congrArg String.data e)

/-- C1: `pathLabel` returns the catch-all or the separator followed by the
joined keys of a non-empty chain of the tree that starts at the root. -/
theorem pathLabel_catchAll_or_chain (paths : pathTree) (path : String) :
    pathLabel paths path = "/-" ∨
    ∃ chain : List String, chain ≠ [] ∧ isChain paths chain = true ∧
      pathLabel paths path = "/" ++ Join chain := by
  unfold pathLabel
  cases h : walk paths (Split (normalize path)) with
  | none => exact Or.inl rfl
  | some out =>
    refine Or.inr ⟨out, ?_, walk_isChain _ _ _ h, rfl⟩
    intro hnil
    have hlen := walk_length _ _ _ h
    rw [hnil] at hlen
    exact Split_ne_nil _ (List.length_eq_zero.mp hlen.symm)

/-- C2: if the loop reaches a segment for which the current subtree has neither
the segment nor the wildcard key, `pathLabel` returns the catch-all, whatever
was matched before it and whatever follows it. -/
theorem pathLabel_abort (paths : pathTree) (path : String)
    (before after : List String) (segment : String) (current : pathTree)
    (hsplit : Split (normalize path) = before ++ segment :: after)
    (hcur : cursor paths before = some current)
    (hlit : current.hasKey segment = false)
    (hwild : current.hasKey "-" = false) :
    pathLabel paths path = "/-" := by
  have hstep : step current segment = none := by
    simp [step, get_eq_none_of_hasKey hlit, get_eq_none_of_hasKey hwild]
  unfold pathLabel
  rw [hsplit, walk_abort before after segment paths current hcur hstep]

theorem pathLabel_abort_witness :
    pathLabel siblingTree "/a/b/x/y" = "/-" :=
  pathLabel_abort siblingTree "/a/b/x/y" ["a", "b"] ["y"] "x" leaf
    (by decide) (by rfl) (by decide) (by decide)

/-- C3: when the loop runs to its end, the template of `pathLabel` has as many
segments as the normalized path; its segment at place `i` is the input segment
when that is a key of the subtree reached at step `i`, and the wildcard
otherwise, in which case that subtree has the wildcard key. -/
theorem pathLabel_complete (paths : pathTree) (path : String) (out : List String)
    (h : walk paths (Split (normalize path)) = some out) :
    pathLabel paths path = "/" ++ Join out ∧
    Split (Join out) = out ∧
    out.length = (Split (normalize path)).length ∧
    ∀ (i : Nat) (s : String), (Split (normalize path))[i]? = some s →
      ∃ current, cursor paths ((Split (normalize path)).take i) = some current ∧
        out[i]? = some (if current.hasKey s = true then s else "-") ∧
        (current.hasKey s = false → current.hasKey "-" = true) := by
  have hlen := walk_length _ _ _ h
  refine ⟨pathLabel_of_walk h, ?_, hlen, walk_pointwise _ _ _ h⟩
  apply Split_Join out
  · intro e
    rw [e] at hlen
    exact Split_ne_nil _ (List.length_eq_zero.mp hlen.symm)
  · exact walk_no_separator h (Split_no_separator _)

theorem pathLabel_complete_witness :
    pathLabel siblingTree "//x/c/" = "/" ++ Join ["-", "c"] ∧
    Split (Join ["-", "c"]) = ["-", "c"] ∧
    ["-", "c"].length = (Split (normalize "//x/c/")).length ∧
    ∀ (i : Nat) (s : String), (Split (normalize "//x/c/"))[i]? = some s →
      ∃ current,
        cursor siblingTree ((Split (normalize "//x/c/")).take i) = some current ∧
        ["-", "c"][i]? = some (if current.hasKey s = true then s else "-") ∧
        (current.hasKey s = false → current.hasKey "-" = true) :=
  pathLabel_complete siblingTree "//x/c/" ["-", "c"] (by decide)

/-- C4: when the segments of the normalized path are a chain of keys from the
root, `pathLabel` returns the separator followed by the normalized path, which
is the path without its leading and trailing separators. -/
theorem pathLabel_literal_chain (paths : pathTree) (path : String)
    (h : isChain paths (Split (normalize path)) = true) :
    pathLabel paths path = "/" ++ normalize path ∧
    Trimmed (normalize path).data ∧
    ∃ n m, path.data =
      List.replicate n '/' ++ (normalize path).data ++ List.replicate m '/' := by
  refine ⟨?_, normalize_trimmed path, normalize_decompose path⟩
  rw [pathLabel_of_walk (walk_of_isChain _ _ h), Join_Split]

theorem pathLabel_literal_chain_witness :
    pathLabel siblingTree "//a/b/" = "/" ++ normalize "//a/b/" ∧
    Trimmed (normalize "//a/b/").data ∧
    ∃ n m, ("//a/b/" : String).data =
      List.replicate n '/' ++ (normalize "//a/b/").data ++ List.replicate m '/' :=
  pathLabel_literal_chain siblingTree "//a/b/" (by decide)

/-- C5: when the subtree reached holds both the current segment and the
wildcard key, the loop keeps the segment and goes on in the child under the
segment: the result of `pathLabel` is built from the loop over the remaining
segments started at that child. -/
theorem pathLabel_literal_first (paths : pathTree) (path : String)
    (before after : List String) (segment : String)
    (current literal wildcard : pathTree)
    (hsplit : Split (normalize path) = before ++ segment :: after)
    (hcur : cursor paths before = some current)
    (hlit : current.get segment = some literal)
    (hwild : current.get "-" = some wildcard) :
    step current segment = some (segment, literal) ∧
    cursor paths (before ++ [segment]) = some literal ∧
    ∃ pre, walk paths before = some pre ∧
      pathLabel paths path =
        match walk literal after with
        | some out => "/" ++ Join (pre ++ segment :: out)
        | none => "/-" := by
  have hstep := step_of_get_some hlit
  obtain ⟨pre, hpre⟩ := walk_isSome_of_cursor before paths current hcur
  refine ⟨hstep, ?_, pre, hpre, ?_⟩
  · obtain ⟨pre1, hpre1⟩ : ∃ o, walk paths (before ++ [segment]) = some o := by
      rw [walk_append before [segment] paths current pre hcur hpre]
      simp [walk, hstep]
    obtain ⟨last, hlast⟩ := cursor_isSome_of_walk _ _ _ hpre1
    rw [hlast]
    clear hpre1 hsplit hpre
    induction before generalizing paths with
    | nil =>
      simp only [cursor, Option.some.injEq] at hcur
      subst hcur
      simpa [cursor, hstep] using hlast.symm
    | cons b bs ih =>
      simp only [List.cons_append, cursor] at hcur hlast
      split at hcur
      · rename_i seg next hs
        rw [hs] at hlast
        exact ih next hcur hlast
      · cases hcur
  · unfold pathLabel
    rw [hsplit, walk_append before (segment :: after) paths current pre hcur hpre]
    simp only [walk, hstep]
    cases walk literal after <;> rfl

theorem pathLabel_literal_first_witness :
    step siblingTree "a" = some ("a", .node [("b", leaf)]) ∧
    cursor siblingTree ([] ++ ["a"]) = some (.node [("b", leaf)]) ∧
    ∃ pre, walk siblingTree [] = some pre ∧
      pathLabel siblingTree "/a/b" =
        match walk (.node [("b", leaf)]) ["b"] with
        | some out => "/" ++ Join (pre ++ "a" :: out)
        | none => "/-" :=
  pathLabel_literal_first siblingTree "/a/b" [] ["b"] "a" siblingTree
    (.node [("b", leaf)]) (.node [("c", leaf)]) (by decide) rfl rfl rfl

/-- C6: `pathLabel` does not backtrack. In the tree with root keys `a` (child
`b`) and `-` (child `c`) the chain `-`, `c` matches the path `/a/c`, the root
holds both `a` and the wildcard, the loop takes `a`, fails at `c` below it, and
`pathLabel` returns the catch-all. -/
theorem pathLabel_no_backtracking :
    isChain siblingTree ["-", "c"] = true ∧
    chainMatches ["-", "c"] (Split (normalize "/a/c")) = true ∧
    siblingTree.hasKey "a" = true ∧ siblingTree.hasKey "-" = true ∧
    (∃ literal, step siblingTree "a" = some ("a", literal) ∧
      step literal "c" = none) ∧
    pathLabel siblingTree "/a/c" = "/-" := by
  refine ⟨by decide, by decide, by decide, by decide, ⟨_, rfl, rfl⟩, by decide⟩

/-- C7: `pathLabel` is idempotent: applied to the template it returned for a
path, with the same tree, it returns that template again. -/
theorem pathLabel_idempotent (paths : pathTree) (path : String) :
    pathLabel paths (pathLabel paths path) = pathLabel paths path := by
  cases h : walk paths (Split (normalize path)) with
  | none =>
    rw [pathLabel_of_abort h]
    exact catchAll_fixed paths
  | some out =>
    rw [pathLabel_of_walk h]
    have hne : out ≠ [] := by
      intro e
      have hlen := walk_length _ _ _ h
      rw [e] at hlen
      exact Split_ne_nil _ (List.length_eq_zero.mp hlen.symm)
    have hnorm : normalize ("/" ++ Join out) = Join out := by
      rw [normalize_separator_append]
      exact normalize_of_trimmed (walk_join_trimmed paths path out h)
    have hsplit : Split (Join out) = out :=
      Split_Join out hne (walk_no_separator h (Split_no_separator _))
    have hwalk : walk paths out = some out :=
      walk_of_isChain out paths (walk_isChain _ _ _ h)
    apply pathLabel_of_walk
    rw [hnorm, hsplit]
    exact hwalk

/-- C8: `pathLabel` does not depend on leading and trailing separators: any
number of separators put before and after a path leaves its template
unchanged; the paths `/a/b/`, `a/b` and `//a/b//` all give the segments `a`,
`b`. -/
theorem pathLabel_separators (paths : pathTree) (path : String) (n m : Nat) :
    pathLabel paths
        (String.mk (List.replicate n '/') ++ path ++ String.mk (List.replicate m '/')) =
      pathLabel paths path ∧
    Split (normalize "/a/b/") = ["a", "b"] ∧
    Split (normalize "a/b") = ["a", "b"] ∧
    Split (normalize "//a/b//") = ["a", "b"] := by
  refine ⟨?_, by decide, by decide, by decide⟩
  unfold pathLabel
  rw [normalize_slashes]

/-- C9, as stated, fails: for the empty path and for a path of separators only,
a tree whose root has no empty key gives the catch-all, not the root template,
with or without a wildcard key at the root. -/
theorem root_template_counterexample :
    Split (normalize "") = [""] ∧ pathLabel leaf "" = "/-" ∧ pathLabel leaf "" ≠ "/" ∧
    (∀ c ∈ ("//" : String).data, c = '/') ∧
    pathLabel (.node [("-", leaf)]) "//" = "/-" ∧
    pathLabel (.node [("-", leaf)]) "//" ≠ "/" := by
  refine ⟨by decide, by decide, by decide, by decide, by decide, by decide⟩

/-- C9, amended: a path that is empty or made of separators only normalizes to
the single empty segment, and `pathLabel` returns the root template when the
root of the tree has the empty key and the catch-all otherwise. -/
theorem pathLabel_empty (paths : pathTree) (path : String)
    (h : ∀ c ∈ path.data, c = '/') :
    Split (normalize path) = [""] ∧
    pathLabel paths path = if paths.hasKey "" = true then "/" else "/-" := by
  have hs : Split (normalize path) = [""] := by rw [normalize_all h]; rfl
  refine ⟨hs, ?_⟩
  unfold pathLabel
  rw [hs, walk_empty_segment]
  by_cases h1 : paths.hasKey "" = true
  · simp only [h1, if_true]; rfl
  · by_cases h2 : paths.hasKey "-" = true
    · simp only [h1, h2, if_true, if_false]; rfl
    · simp only [h1, h2, if_false]
      rfl

theorem pathLabel_empty_witness :
    Split (normalize "///") = [""] ∧
    pathLabel (.node [("", leaf), ("-", leaf)]) "///" =
      if (pathTree.node [("", leaf), ("-", leaf)]).hasKey "" = true then "/" else "/-" :=
  pathLabel_empty (.node [("", leaf), ("-", leaf)]) "///" (by decide)

/-- C10, as stated, fails: the path `a//b` is neither empty nor made of
separators only, and its segment sequence holds an empty segment. -/
theorem segments_counterexample :
    ¬ (∀ c ∈ ("a//b" : String).data, c = '/') ∧ ("a//b" : String) ≠ "" ∧
    Split (normalize "a//b") = ["a", "", "b"] ∧
    "" ∈ Split (normalize "a//b") := by
  refine ⟨by decide, by decide, by decide, by decide⟩

/-- C10, amended: a path that is empty or made of separators only gives exactly
one empty segment; for every other path the first and the last segment are
non-empty, and all segments are non-empty exactly when the normalized path has
no two separators next to each other. -/
theorem segments_nonempty (path : String) :
    ((∀ c ∈ path.data, c = '/') → Split (normalize path) = [""]) ∧
    (¬ (∀ c ∈ path.data, c = '/') →
      (Split (normalize path)).head? ≠ some "" ∧
      (Split (normalize path)).getLast? ≠ some "" ∧
      ((∀ s ∈ Split (normalize path), s ≠ "") ↔
        adjacentSeparators (normalize path).data = false)) := by
  constructor
  · intro h
    rw [normalize_all h]; rfl
  · intro h
    have hne : normalize path ≠ "" := fun e => h (all_of_normalize_empty e)
    have ht := Split_trimmed hne (normalize_trimmed path)
    exact ⟨ht.1, ht.2, Split_nonempty_iff hne (normalize_trimmed path)⟩

theorem segments_nonempty_witness :
    Split (normalize "//") = [""] ∧ (∀ s ∈ Split (normalize "/a/b/"), s ≠ "") :=
  ⟨(segments_nonempty "//").1 (by decide),
    ((segments_nonempty "/a/b/").2 (by decide)).2.2.2 (by decide)⟩

/-- C11: in a tree with the chain `api`, `clusters_mgmt` and a wildcard child
`W` below it, where `clusters_mgmt` has no key `123`, the path
`/api/clusters_mgmt/123/status` gets the template with `123` rewritten and
`status` kept when `W` has the key `status`, the template with both rewritten
when `W` has only the wildcard key, and the catch-all when `W` has neither. -/
theorem pathLabel_clusters_scenario (paths api clusters W : pathTree)
    (hapi : paths.get "api" = some api)
    (hclusters : api.get "clusters_mgmt" = some clusters)
    (hid : clusters.get "123" = none)
    (hW : clusters.get "-" = some W) :
    pathLabel paths "/api/clusters_mgmt/123/status" =
      if W.hasKey "status" = true then "/api/clusters_mgmt/-/status"
      else if W.hasKey "-" = true then "/api/clusters_mgmt/-/-"
      else "/-" := by
  have hs : Split (normalize "/api/clusters_mgmt/123/status") =
      ["api", "clusters_mgmt", "123", "status"] := by decide
  unfold pathLabel
  rw [hs, walk_cons_of_step _ (step_of_get_some hapi),
    walk_cons_of_step _ (step_of_get_some hclusters)]
  have h3 : step clusters "123" = some ("-", W) := by
    rw [step_of_get_none hid, hW]; rfl
  rw [walk_cons_of_step _ h3]
  unfold pathTree.hasKey
  cases hst : W.get "status" with
  | some next =>
    rw [walk_cons_of_step _ (step_of_get_some hst)]
    simp only [walk, Option.map_some', Option.isSome_some, if_true]
    decide
  | none =>
    cases hwc : W.get "-" with
    | some next =>
      have h4 : step W "status" = some ("-", next) := by
        rw [step_of_get_none hst, hwc]; rfl
      rw [walk_cons_of_step _ h4]
      simp only [walk, Option.map_some', Option.isSome_none, Option.isSome_some, if_true]
      decide
    | none =>
      have h4 : step W "status" = none := by
        rw [step_of_get_none hst, hwc]; rfl
      rw [walk_cons_of_abort _ h4]
      simp

theorem pathLabel_clusters_scenario_witness :
    pathLabel (clustersTree wildcardRoot) "/api/clusters_mgmt/123/status" =
      if wildcardRoot.hasKey "status" = true then "/api/clusters_mgmt/-/status"
      else if wildcardRoot.hasKey "-" = true then "/api/clusters_mgmt/-/-"
      else "/-" :=
  pathLabel_clusters_scenario (clustersTree wildcardRoot)
    (.node [("clusters_mgmt", .node [("-", wildcardRoot)])])
    (.node [("-", wildcardRoot)]) wildcardRoot rfl rfl rfl rfl

/-! ## `serviceLabel` -/

theorem hasPrefix_trans {path mid pre : String} (h : HasPrefix path mid = true)
    (hp : HasPrefix mid pre = true) : HasPrefix path pre = true := by
  unfold HasPrefix at *
  rw [List.isPrefixOf_iff_prefix] at *
  exact hp.trans h

theorem hasPrefix_exclusive {path p q : String} (h : HasPrefix path p = true)
    (hpq : HasPrefix p q = false) (hqp : HasPrefix q p = false) :
    HasPrefix path q = false := by
  cases hq : HasPrefix path q with
  | false => rfl
  | true =>
    unfold HasPrefix at *
    rw [List.isPrefixOf_iff_prefix] at h hq
    rcases List.prefix_or_prefix_of_prefix h hq with h1 | h1
    · rw [← List.isPrefixOf_iff_prefix, hqp] at h1; cases h1
    · rw [← List.isPrefixOf_iff_prefix, hpq] at h1; cases h1

theorem serviceLabel_of_not_api {path : String} (h : HasPrefix path "/api/" = false) :
    serviceLabel path = "" := by
  simp [serviceLabel, h]

theorem serviceLabel_of_no_family {path : String} (hapi : HasPrefix path "/api/" = true)
    (h1 : HasPrefix path "/api/accounts_mgmt" = false)
    (h2 : HasPrefix path "/api/clusters_mgmt" = false)
    (h3 : HasPrefix path "/api/authorizations" = false)
    (h4 : HasPrefix path "/api/service_logs" = false) :
    serviceLabel path =
      if h : (Split path).length > 3 then "ocm-" ++ (Split path)[3] else "" := by
  simp [serviceLabel, hapi, h1, h2, h3, h4]

theorem getElem?_three_of_lt {parts : List String} (h : parts.length > 3) :
    parts[3]? = some parts[3] :=
  List.getElem?_eq_getElem h

/-- The paths `/api/x/aa...a` used to show that the synthesized labels are not
bounded. -/
theorem serviceLabel_synthetic (n : Nat) :
    serviceLabel ("/api/x/" ++ String.mk (List.replicate n 'a')) =
      "ocm-" ++ String.mk (List.replicate n 'a') := by
  have hns : '/' ∉ List.replicate n 'a' := by
    intro h
    exact absurd (List.mem_replicate.mp h).2 (by decide)
  have hd : ("/api/x/" ++ String.mk (List.replicate n 'a')).data =
      [] ++ '/' :: (['a', 'p', 'i'] ++ '/' :: (['x'] ++ '/' :: List.replicate n 'a')) := by
    rw [String.data_append]; rfl
  have hsplit : Split ("/api/x/" ++ String.mk (List.replicate n 'a')) =
      ["", "api", "x", String.mk (List.replicate n 'a')] := by
    unfold Split
    rw [hd, splitChars_append_separator (by decide), splitChars_append_separator (by decide),
      splitChars_append_separator (by decide), splitChars_of_no_separator hns]
    rfl
  have hpre : ∀ pre : String, HasPrefix ("/api/x/" ++ String.mk (List.replicate n 'a')) pre =
      pre.data.isPrefixOf ('/' :: 'a' :: 'p' :: 'i' :: '/' :: 'x' :: '/' :: List.replicate n 'a') := by
    intro pre
    unfold HasPrefix
    rw [hd]; rfl
  have h0 : HasPrefix ("/api/x/" ++ String.mk (List.replicate n 'a')) "/api/" = true := by
    rw [hpre]; rfl
  have h1 : HasPrefix ("/api/x/" ++ String.mk (List.replicate n 'a')) "/api/accounts_mgmt"
      = false := by
    rw [hpre]; rfl
  have h2 : HasPrefix ("/api/x/" ++ String.mk (List.replicate n 'a')) "/api/clusters_mgmt"
      = false := by
    rw [hpre]; rfl
  have h3 : HasPrefix ("/api/x/" ++ String.mk (List.replicate n 'a')) "/api/authorizations"
      = false := by
    rw [hpre]; rfl
  have h4 : HasPrefix ("/api/x/" ++ String.mk (List.replicate n 'a')) "/api/service_logs"
      = false := by
    rw [hpre]; rfl
  rw [serviceLabel_of_no_family h0 h1 h2 h3 h4]
  simp [hsplit]

/-- C12, as stated, fails: for the path `/api/unknown_family/v1/things` the
fourth element of the split is not `unknown_family`, and `serviceLabel` does
not return `ocm-unknown_family`. -/
theorem unknown_family_counterexample :
    (Split "/api/unknown_family/v1/things")[3]? ≠ some "unknown_family" ∧
    serviceLabel "/api/unknown_family/v1/things" ≠ "ocm-unknown_family" := by
  refine ⟨by decide, by decide⟩

/-- C12, amended: the path `/api/unknown_family/v1/things` starts with `/api/`
and with none of the four family prefixes; its split starts with the empty
piece before the leading separator, so `unknown_family` is the third element
and `v1` the fourth, and `serviceLabel` returns `ocm-v1`. -/
theorem serviceLabel_unknown_family :
    HasPrefix "/api/unknown_family/v1/things" "/api/" = true ∧
    HasPrefix "/api/unknown_family/v1/things" "/api/accounts_mgmt" = false ∧
    HasPrefix "/api/unknown_family/v1/things" "/api/clusters_mgmt" = false ∧
    HasPrefix "/api/unknown_family/v1/things" "/api/authorizations" = false ∧
    HasPrefix "/api/unknown_family/v1/things" "/api/service_logs" = false ∧
    Split "/api/unknown_family/v1/things" = ["", "api", "unknown_family", "v1", "things"] ∧
    (Split "/api/unknown_family/v1/things")[2]? = some "unknown_family" ∧
    (Split "/api/unknown_family/v1/things")[3]? = some "v1" ∧
    serviceLabel "/api/unknown_family/v1/things" = "ocm-v1" := by
  refine ⟨by decide, by decide, by decide, by decide, by decide, by decide, by decide,
    by decide, by decide⟩

/-- C13: a path that starts with one of the four known family prefixes gets the
fixed label of that family; in particular `/api/accounts_mgmt/v1/accounts`
gets `ocm-accounts-service`. -/
theorem serviceLabel_family (path : String) :
    (HasPrefix path "/api/accounts_mgmt" = true →
      serviceLabel path = "ocm-accounts-service") ∧
    (HasPrefix path "/api/clusters_mgmt" = true →
      serviceLabel path = "ocm-clusters-service") ∧
    (HasPrefix path "/api/authorizations" = true →
      serviceLabel path = "ocm-authorizations-service") ∧
    (HasPrefix path "/api/service_logs" = true →
      serviceLabel path = "ocm-logs-service") ∧
    serviceLabel "/api/accounts_mgmt/v1/accounts" = "ocm-accounts-service" := by
  refine ⟨?_, ?_, ?_, ?_, by decide⟩
  · intro h
    have h0 := hasPrefix_trans h (by decide : HasPrefix "/api/accounts_mgmt" "/api/" = true)
    simp [serviceLabel, h0, h]
  · intro h
    have h0 := hasPrefix_trans h (by decide : HasPrefix "/api/clusters_mgmt" "/api/" = true)
    have h1 := hasPrefix_exclusive h (q := "/api/accounts_mgmt") (by decide) (by decide)
    simp [serviceLabel, h0, h1, h]
  · intro h
    have h0 := hasPrefix_trans h (by decide : HasPrefix "/api/authorizations" "/api/" = true)
    have h1 := hasPrefix_exclusive h (q := "/api/accounts_mgmt") (by decide) (by decide)
    have h2 := hasPrefix_exclusive h (q := "/api/clusters_mgmt") (by decide) (by decide)
    simp [serviceLabel, h0, h1, h2, h]
  · intro h
    have h0 := hasPrefix_trans h (by decide : HasPrefix "/api/service_logs" "/api/" = true)
    have h1 := hasPrefix_exclusive h (q := "/api/accounts_mgmt") (by decide) (by decide)
    have h2 := hasPrefix_exclusive h (q := "/api/clusters_mgmt") (by decide) (by decide)
    have h3 := hasPrefix_exclusive h (q := "/api/authorizations") (by decide) (by decide)
    simp [serviceLabel, h0, h1, h2, h3, h]

theorem serviceLabel_family_witness :
    serviceLabel "/api/accounts_mgmt" = "ocm-accounts-service" ∧
    serviceLabel "/api/clusters_mgmt/v1/clusters/123" = "ocm-clusters-service" ∧
    serviceLabel "/api/authorizations/v1/access_review" = "ocm-authorizations-service" ∧
    serviceLabel "/api/service_logs_x" = "ocm-logs-service" :=
  ⟨(serviceLabel_family "/api/accounts_mgmt").1 (by decide),
    (serviceLabel_family "/api/clusters_mgmt/v1/clusters/123").2.1 (by decide),
    (serviceLabel_family "/api/authorizations/v1/access_review").2.2.1 (by decide),
    (serviceLabel_family "/api/service_logs_x").2.2.2.1 (by decide)⟩

/-- C14: a path that does not start with `/api/` gets the empty label; in
particular `/healthz` does. -/
theorem serviceLabel_outside_api (path : String) (h : HasPrefix path "/api/" = false) :
    serviceLabel path = "" ∧ serviceLabel "/healthz" = "" :=
  ⟨serviceLabel_of_not_api h, by decide⟩

theorem serviceLabel_outside_api_witness :
    serviceLabel "/api" = "" ∧ serviceLabel "/healthz" = "" :=
  serviceLabel_outside_api "/api" (by decide)

/-- C15: for a path that starts with `/api/` and with none of the four family
prefixes, `serviceLabel` returns `ocm-` followed by the fourth element of the
path split on the separator when the split has more than three elements, and
the empty string otherwise. -/
theorem serviceLabel_synthesized (path : String)
    (hapi : HasPrefix path "/api/" = true)
    (h1 : HasPrefix path "/api/accounts_mgmt" = false)
    (h2 : HasPrefix path "/api/clusters_mgmt" = false)
    (h3 : HasPrefix path "/api/authorizations" = false)
    (h4 : HasPrefix path "/api/service_logs" = false) :
    (∀ h : (Split path).length > 3, serviceLabel path = "ocm-" ++ (Split path)[3]) ∧
    (¬ (Split path).length > 3 → serviceLabel path = "") := by
  rw [serviceLabel_of_no_family hapi h1 h2 h3 h4]
  constructor
  · intro h; rw [dif_pos h]
  · intro h; rw [dif_neg h]

theorem serviceLabel_synthesized_witness :
    (∀ h : (Split "/api/foo/bar").length > 3,
      serviceLabel "/api/foo/bar" = "ocm-" ++ (Split "/api/foo/bar")[3]) ∧
    (¬ (Split "/api/foo/bar").length > 3 → serviceLabel "/api/foo/bar" = "") :=
  serviceLabel_synthesized "/api/foo/bar" (by decide) (by decide) (by decide) (by decide)
    (by decide)

/-- C16, as stated, fails: the values of `serviceLabel` over all paths are not
a finite set, the paths `/api/x/a`, `/api/x/aa`, ... all getting different
labels. -/
theorem serviceLabel_range_infinite : ¬ (Set.range serviceLabel).Finite := by
  have hinj : Function.Injective
      (fun n : Nat => serviceLabel ("/api/x/" ++ String.mk (List.replicate n 'a'))) := by
    intro n m h
    have h1 : "ocm-" ++ String.mk (List.replicate n 'a') =
        "ocm-" ++ String.mk (List.replicate m 'a') := by
      rw [← serviceLabel_synthetic n, ← serviceLabel_synthetic m]; exact h
    have h2 := congrArg String.data h1
    rw [String.data_append, String.data_append] at h2
    have h3 := congrArg List.length (List.append_cancel_left h2)
    rw [List.length_replicate, List.length_replicate] at h3
    exact h3
  exact Set.infinite_of_injective_forall_mem hinj (fun n => Set.mem_range_self _)

/-- C16, amended: the value of `serviceLabel` is one of the five fixed labels or
`ocm-` followed by the fourth element of the split path; over paths whose
fourth split element, if any, lies in a given finite list, the values lie in a
finite list. -/
theorem serviceLabel_values (allowed : List String) (path : String)
    (h : ∀ s, (Split path)[3]? = some s → s ∈ allowed) :
    serviceLabel path ∈ fixedServiceLabels ++ allowed.map (fun s => "ocm-" ++ s) := by
  rw [List.mem_append]
  unfold serviceLabel
  by_cases hlen : (Split path).length > 3
  · have hmem := h _ (getElem?_three_of_lt hlen)
    simp only [hlen, dite_true]
    split_ifs
    · left; decide
    · left; decide
    · left; decide
    · left; decide
    · left; decide
    · right; exact List.mem_map_of_mem _ hmem
  · simp only [hlen, dite_false]
    split_ifs <;> (left; decide)

theorem serviceLabel_values_witness :
    serviceLabel "/api/foo/v1/things" ∈
      fixedServiceLabels ++ ["v1", "v2"].map (fun s => "ocm-" ++ s) :=
  serviceLabel_values ["v1", "v2"] "/api/foo/v1/things" (by decide)

/-! ## `codeLabel` -/

theorem digitChar_value : ∀ d : Fin 10, (digitChar d.val).toNat - '0'.toNat = d.val := by
  decide

theorem digitChar_ne_minus : ∀ d : Fin 10, digitChar d.val ≠ '-' := by
  decide

theorem decimalValue_concat (cs : List Char) (c : Char) :
    decimalValue (cs ++ [c]) = 10 * decimalValue cs + (c.toNat - '0'.toNat) := by
  simp [decimalValue, List.foldl_append]

/-- The digits written with enough fuel stand for the number. -/
theorem decimalValue_formatBits : ∀ (fuel u : Nat), u < fuel →
    decimalValue (formatBits fuel u) = u
  | 0, _, h => absurd h (Nat.not_lt_zero _)
  | fuel + 1, u, h => by
    unfold formatBits
    by_cases hu : u < 10
    · rw [if_pos hu]
      have := digitChar_value ⟨u, hu⟩
      simpa [decimalValue] using this
    · rw [if_neg hu, decimalValue_concat,
        decimalValue_formatBits fuel (u / 10) (by omega)]
      have := digitChar_value ⟨u % 10, Nat.mod_lt _ (by decide)⟩
      simp only at this
      rw [this]
      omega

theorem formatBits_digits : ∀ (fuel u : Nat), ∀ c ∈ formatBits fuel u,
    ∃ d : Fin 10, c = digitChar d.val
  | 0, _, c, h => by simp [formatBits] at h
  | fuel + 1, u, c, h => by
    unfold formatBits at h
    by_cases hu : u < 10
    · rw [if_pos hu] at h
      exact ⟨⟨u, hu⟩, List.mem_singleton.mp h⟩
    · rw [if_neg hu] at h
      rcases List.mem_append.mp h with h1 | h1
      · exact formatBits_digits fuel (u / 10) c h1
      · exact ⟨⟨u % 10, Nat.mod_lt _ (by decide)⟩, List.mem_singleton.mp h1⟩

theorem decimalInt_of_digits {cs : List Char}
    (h : ∀ c ∈ cs, ∃ d : Fin 10, c = digitChar d.val) :
    decimalInt ⟨cs⟩ = (decimalValue cs : Int) := by
  unfold decimalInt
  split
  · rename_i ds heq
    simp only at heq
    obtain ⟨d, hd⟩ := h '-' (heq ▸ List.mem_cons_self _ _)
    exact absurd hd.symm (digitChar_ne_minus d)
  · rfl

/-- Reading the string written by `Itoa` gives the number back. -/
theorem decimalInt_Itoa (i : Int) : decimalInt (Itoa i) = i := by
  unfold Itoa
  by_cases hi : i < 0
  · rw [if_pos hi]
    show - (decimalValue (formatBits (i.natAbs + 1) i.natAbs) : Int) = i
    rw [decimalValue_formatBits _ _ (Nat.lt_succ_self _)]
    omega
  · rw [if_neg hi, decimalInt_of_digits (formatBits_digits _ _),
      decimalValue_formatBits _ _ (Nat.lt_succ_self _)]
    omega

/-- C17: `codeLabel` returns `0` when there is no response; for a response it
returns the decimal string of the status code, which reads back as that code;
a response with status 404 gives `404`. -/
theorem codeLabel_decimal :
    codeLabel none = "0" ∧
    (∀ r : Response, codeLabel (some r) = Itoa r.StatusCode ∧
      decimalInt (codeLabel (some r)) = r.StatusCode) ∧
    codeLabel (some ⟨404⟩) = "404" := by
  refine ⟨by decide, ?_, by decide⟩
  intro r
  exact ⟨rfl, decimalInt_Itoa r.StatusCode⟩

/-! ## Bounds -/

theorem sliceChecked_tail (c : Char) (cs : List Char) :
    sliceChecked (c :: cs) 1 ((c :: cs).length : Int) = some cs := by
  unfold sliceChecked
  rw [if_pos]
  · simp
  · simp only [List.length_cons, Nat.cast_add, Nat.cast_one]
    omega

theorem sliceChecked_dropLast (cs : List Char) (c : Char) :
    sliceChecked (cs ++ [c]) 0 (((cs ++ [c]).length : Int) - 1) = some cs := by
  unfold sliceChecked
  rw [if_pos]
  · simp
  · simp only [List.length_append, List.length_singleton, Nat.cast_add, Nat.cast_one]
    omega

theorem trimLeadingChecked_eq : ∀ (cs : List Char) (fuel : Nat), cs.length < fuel →
    trimLeadingChecked fuel cs = some (trimLeadingChars cs)
  | _, 0, h => absurd h (Nat.not_lt_zero _)
  | [], fuel + 1, _ => by simp [trimLeadingChecked, trimLeadingChars]
  | c :: cs, fuel + 1, h => by
    unfold trimLeadingChecked
    by_cases hc : c = '/'
    · subst hc
      rw [if_pos ⟨by simp, rfl⟩, sliceChecked_tail, Option.some_bind, trimLeadingChars_slash]
      exact trimLeadingChecked_eq cs fuel (by simpa using h)
    · rw [if_neg (by simpa using hc), trimLeadingChars_of_ne cs hc]

theorem trimTrailingChecked_eq (cs : List Char) : ∀ (fuel : Nat), cs.length < fuel →
    trimTrailingChecked fuel cs = some (trimTrailingChars cs) := by
  induction cs using List.reverseRecOn with
  | nil =>
    intro fuel h
    cases fuel with
    | zero => exact absurd h (Nat.not_lt_zero _)
    | succ n => simp [trimTrailingChecked, trimTrailingChars_nil]
  | append_singleton cs c ih =>
    intro fuel h
    cases fuel with
    | zero => exact absurd h (Nat.not_lt_zero _)
    | succ n =>
      unfold trimTrailingChecked
      by_cases hc : c = '/'
      · subst hc
        rw [if_pos ⟨by simp, by simp⟩, sliceChecked_dropLast, Option.some_bind,
          trimTrailingChars_concat_slash]
        exact ih n (by simpa using h)
      · rw [if_neg (by simpa using hc), trimTrailingChars_concat_of_ne cs hc]

theorem indexChecked_three {parts : List String} (h : parts.length > 3) :
    indexChecked parts 3 = some parts[3] := by
  unfold indexChecked
  rw [if_pos ⟨by decide, by omega⟩]
  exact List.getElem?_eq_getElem h

/-- C18: `pathLabel` and `serviceLabel` always return a value. With the slice
expressions of the two stripping loops and the index expression `parts[3]`
checked against the bounds, and each loop given one round more than the length
of its path, the functions return the values of `pathLabel` and `serviceLabel`
for every tree and every path. -/
theorem labels_total (paths : pathTree) (path : String) :
    pathLabelChecked paths path = some (pathLabel paths path) ∧
    serviceLabelChecked path = some (serviceLabel path) ∧
    pathLabelChecked leaf path = some (pathLabel leaf path) := by
  have hp : ∀ t : pathTree, pathLabelChecked t path = some (pathLabel t path) := by
    intro t
    unfold pathLabelChecked
    rw [trimLeadingChecked_eq _ _ (Nat.lt_succ_self _), Option.some_bind,
      trimTrailingChecked_eq _ _ (Nat.lt_succ_self _), Option.some_bind]
    unfold pathLabel normalize
    cases walk t (Split ⟨trimTrailingChars (trimLeadingChars path.data)⟩) <;> rfl
  refine ⟨hp paths, ?_, hp leaf⟩
  unfold serviceLabelChecked serviceLabel
  split_ifs with h0 h1 h2 h3 h4
  · rfl
  · rfl
  · rfl
  · rfl
  · rfl
  · simp only
    by_cases hlen : (Split path).length > 3
    · rw [if_pos hlen, dif_pos hlen, indexChecked_three hlen]; rfl
    · rw [if_neg hlen, dif_neg hlen]

/-! ## `methodLabel` -/

theorem ascii_cases (P : Char → Prop) (h : ∀ n : Fin 128, P (Char.ofNat n.val))
    (c : Char) (hc : c.toNat < 128) : P c := by
  rw [← Char.ofNat_toNat c]
  exact h ⟨c.toNat, hc⟩

set_option maxRecDepth 100000 in
theorem asciiUpper_table : ∀ n : Fin 128,
    asciiUpper (Char.ofNat n.val) = (Char.ofNat n.val).toUpper ∧
    asciiUpper (asciiUpper (Char.ofNat n.val)) = asciiUpper (Char.ofNat n.val) ∧
    (asciiUpper (Char.ofNat n.val)).toNat < 128 ∧
    (isAsciiLetter (Char.ofNat n.val) = true →
      (asciiUpper (Char.ofNat n.val)).isUpper = true) ∧
    (¬ ('a'.toNat ≤ (Char.ofNat n.val).toNat ∧ (Char.ofNat n.val).toNat ≤ 'z'.toNat) →
      asciiUpper (Char.ofNat n.val) = Char.ofNat n.val) := by
  decide

theorem asciiUpper_facts (c : Char) (hc : c.toNat < 128) :
    asciiUpper c = c.toUpper ∧
    asciiUpper (asciiUpper c) = asciiUpper c ∧
    (asciiUpper c).toNat < 128 ∧
    (isAsciiLetter c = true → (asciiUpper c).isUpper = true) ∧
    (¬ ('a'.toNat ≤ c.toNat ∧ c.toNat ≤ 'z'.toNat) → asciiUpper c = c) :=
  ascii_cases (fun c => asciiUpper c = c.toUpper ∧
    asciiUpper (asciiUpper c) = asciiUpper c ∧
    (asciiUpper c).toNat < 128 ∧
    (isAsciiLetter c = true → (asciiUpper c).isUpper = true) ∧
    (¬ ('a'.toNat ≤ c.toNat ∧ c.toNat ≤ 'z'.toNat) → asciiUpper c = c))
    asciiUpper_table c hc

theorem isAsciiLetter_ascii {c : Char} (h : isAsciiLetter c = true) : c.toNat < 128 := by
  have hZ : 'Z'.toNat = 90 := rfl
  have hz : 'z'.toNat = 122 := rfl
  unfold isAsciiLetter at h
  simp only [Bool.or_eq_true, Bool.and_eq_true, decide_eq_true_eq, hZ, hz] at h
  omega

/-- On a string of ASCII characters `ToUpper` shifts every character through
the ASCII branch. -/
theorem ToUpper_ascii (upper : Char → Char) (s : String)
    (hs : ∀ c ∈ s.data, c.toNat < 128) :
    (ToUpper upper s).data = s.data.map asciiUpper := by
  unfold ToUpper
  rw [if_pos (List.all_eq_true.mpr (fun c hc => decide_eq_true (hs c hc)))]
  by_cases hany : s.data.any
      (fun c => decide ('a'.toNat ≤ c.toNat ∧ c.toNat ≤ 'z'.toNat)) = true
  · rw [if_pos hany]
  · rw [if_neg hany]
    have hnone : ∀ c ∈ s.data, asciiUpper c = c := by
      intro c hc
      apply (asciiUpper_facts c (hs c hc)).2.2.2.2
      intro hl
      exact hany (List.any_eq_true.mpr ⟨c, hc, decide_eq_true hl⟩)
    have hid : s.data.map asciiUpper = s.data.map id := List.map_congr_left hnone
    rw [hid, List.map_id]

/-- C19: for a method made of ASCII letters `methodLabel` returns the method
with every lowercase letter replaced by its uppercase form, all characters of
the result are uppercase letters, uppercasing the result again leaves it
unchanged, and `get` gives `GET`. -/
theorem methodLabel_letters (upper : Char → Char) (method : String)
    (h : ∀ c ∈ method.data, isAsciiLetter c = true) :
    (methodLabel upper method).data = method.data.map Char.toUpper ∧
    (∀ c ∈ (methodLabel upper method).data, c.isUpper = true) ∧
    methodLabel upper (methodLabel upper method) = methodLabel upper method ∧
    methodLabel upper "get" = "GET" := by
  have hascii : ∀ c ∈ method.data, c.toNat < 128 :=
    fun c hc => isAsciiLetter_ascii (h c hc)
  have hdata : (methodLabel upper method).data = method.data.map asciiUpper :=
    ToUpper_ascii upper method hascii
  have hascii2 : ∀ c ∈ (methodLabel upper method).data, c.toNat < 128 := by
    intro c hc
    rw [hdata] at hc
    obtain ⟨d, hd, rfl⟩ := List.mem_map.mp hc
    exact (asciiUpper_facts d (hascii d hd)).2.2.1
  refine ⟨?_, ?_, ?_, ?_⟩
  · rw [hdata]
    apply List.map_congr_left
    intro c hc
    exact (asciiUpper_facts c (hascii c hc)).1
  · intro c hc
    rw [hdata] at hc
    obtain ⟨d, hd, rfl⟩ := List.mem_map.mp hc
    exact (asciiUpper_facts d (hascii d hd)).2.2.2.1 (h d hd)
  · apply String.ext
    have h2 := ToUpper_ascii upper (methodLabel upper method) hascii2
    unfold methodLabel at h2 hdata ⊢
    rw [h2, hdata, List.map_map]
    apply List.map_congr_left
    intro c hc
    exact (asciiUpper_facts c (hascii c hc)).2.1
  · show ToUpper upper "get" = "GET"
    apply String.ext
    rw [ToUpper_ascii upper "get" (by decide)]
    decide

theorem methodLabel_letters_witness :
    (methodLabel id "Post").data = ("Post" : String).data.map Char.toUpper ∧
    (∀ c ∈ (methodLabel id "Post").data, c.isUpper = true) ∧
    methodLabel id (methodLabel id "Post") = methodLabel id "Post" ∧
    methodLabel id "get" = "GET" :=
  methodLabel_letters id "Post" (by decide)

/-- C20: the catch-all does not tell a match from a miss. With a root whose
only key is the wildcard, the loop over the path `/xyz` runs to its end with
its one segment covered by the wildcard key, and `pathLabel` returns the same
string as for a tree without any key, where the loop returns early. -/
theorem pathLabel_catchAll_ambiguous :
    walk wildcardRoot (Split (normalize "/xyz")) = some ["-"] ∧
    isChain wildcardRoot ["-"] = true ∧
    chainMatches ["-"] (Split (normalize "/xyz")) = true ∧
    pathLabel wildcardRoot "/xyz" = "/-" ∧
    walk leaf (Split (normalize "/xyz")) = none ∧
    pathLabel leaf "/xyz" = "/-" := by
  refine ⟨by decide, by decide, by decide, by decide, by decide, by decide⟩

end Metrics
